import Mathlib

/-!
Shallow embedding of the Chicago Bears article scraper pipeline
(`scripts/scraper.js`) and proofs about its specification claims.

Host-environment behaviour (JS `Date` parsing, `Date.now()`, the network)
is passed in as explicit parameters:
  * `parse : String → Option Int` models `new Date(s).getTime()`,
    `none` standing for `NaN` (an unparseable date);
  * `now : Int` models `Date.now()` (milliseconds since the epoch).
JS string truthiness (`undefined`/`null`/`""` are falsy) is modelled by
`Option String` together with `truthy`.
-/

namespace BearsClips

/-- JS truthiness for a string-or-absent value: `undefined`, `null` and `""`
are falsy, every other string is truthy. -/
def truthy : Option String → Bool
  | none => false
  | some s => s ≠ ""

/-- An article record/draft, the shape produced by every strategy in
`scraper.js` and persisted in `articles.json`. Fields that the code tests
for truthiness or that may be `null`/absent are `Option String`. -/
structure Article where
  id : Option String
  title : Option String
  author : Option String
  source : String
  sourceUrl : Option String
  publishedAt : Option String
  excerpt : Option String
  content : String
  scrapedAt : String
deriving DecidableEq, Repr

/-- `LOOKBACK_HOURS = 26` (scraper.js line 16). -/
def LOOKBACK_HOURS : Int := 26

/-- `MAX_FOLLOW_PER_SITE = 10` (scraper.js line 17). -/
def MAX_FOLLOW_PER_SITE : Nat := 10

/-- Milliseconds in an hour, `60 * 60 * 1000`. -/
def msPerHour : Int := 60 * 60 * 1000

/-- `isRecent(dateStr)` (scraper.js lines 27–32):
`if (!dateStr) return true; const date = new Date(dateStr);
if (isNaN(date)) return true;
return Date.now() - date.getTime() < LOOKBACK_HOURS * 60 * 60 * 1000;` -/
def isRecent (parse : String → Option Int) (now : Int) (dateStr : Option String) : Bool :=
  if truthy dateStr then
    match parse (dateStr.getD "") with
    | none => true
    | some t => decide (now - t < LOOKBACK_HOURS * msPerHour)
  else true

/-- What the host `fetch` call can do for one URL: reject (network error,
abort/timeout), or resolve with a status and a body-read outcome
(`none` = `resp.text()` rejected). -/
inductive FetchEvent where
  | thrown
  | response (status : Nat) (body : Option String)
deriving DecidableEq, Repr

/-- `resp.ok`: status in the range 200–299. -/
def respOk (status : Nat) : Bool := 200 ≤ status && status ≤ 299

/-- `fetchPage(url)` (scraper.js lines 52–75): returns the body text on a
2xx response whose body reads successfully; on a non-ok status it logs and
returns `null`; any thrown error (network, abort, body read) is caught and
yields `null`. -/
def fetchPage : FetchEvent → Option String
  | .thrown => none
  | .response status body => if respOk status then body else none

/-- One step of the per-source accumulation in `run`: a successful source
appends its drafts (`allNew.push(...)`), a throwing source is caught and
contributes nothing. -/
def collectStep (acc : List Article) (r : Except Unit (List Article)) : List Article :=
  match r with
  | .ok drafts => acc ++ drafts
  | .error _ => acc

/-- The per-source draft collection loop of `run` (scraper.js lines
479–503): each source's strategy (plus optional enrichment) either throws
(`Except.error`) — caught, logged, contributing zero drafts — or yields a
list of drafts pushed onto the accumulator. -/
def collectSourceDrafts (results : List (Except Unit (List Article))) : List Article :=
  results.foldl collectStep []

theorem collect_foldl_init (ys : List (Except Unit (List Article))) (init : List Article) :
    ys.foldl collectStep init = init ++ ys.foldl collectStep [] := by
  induction ys generalizing init with
  | nil => simp
  | cons r rest ih =>
    cases r with
    | error e =>
      show rest.foldl collectStep init = init ++ rest.foldl collectStep ([].append [])
      simpa using ih init
    | ok ds =>
      show rest.foldl collectStep (init ++ ds) = init ++ rest.foldl collectStep ([] ++ ds)
      rw [ih (init ++ ds), List.nil_append, ih ds, List.append_assoc]

theorem collectSourceDrafts_append (xs ys : List (Except Unit (List Article))) :
    collectSourceDrafts (xs ++ ys)
      = collectSourceDrafts xs ++ collectSourceDrafts ys := by
  unfold collectSourceDrafts
  rw [List.foldl_append, collect_foldl_init]

theorem collectSourceDrafts_ok (dss : List (List Article)) :
    collectSourceDrafts (dss.map Except.ok) = dss.flatten := by
  induction dss with
  | nil => rfl
  | cons ds rest ih =>
    have h : ((ds :: rest).map Except.ok : List (Except Unit (List Article)))
        = [Except.ok ds] ++ rest.map Except.ok := rfl
    rw [h, collectSourceDrafts_append, ih, List.flatten_cons]
    rfl

/-! ## JS `Map` keyed by `id`, in insertion order

`byId` in `run` is a JS `Map`: `set` on a fresh key appends at the end,
`set` on an existing key overwrites the value but keeps the key's original
position. Since every insertion uses `a.id` as the key, the map is
modelled as a `List Article` whose `id`s are pairwise distinct. -/

/-- `byId.set(a.id, a)`: overwrite in place if the id is present, else
append at the end. -/
def setById (a : Article) : List Article → List Article
  | [] => [a]
  | b :: rest => if b.id = a.id then a :: rest else b :: setById a rest

/-- `byId.get(k)`: the unique record with id `k`, if any. -/
def look (k : Option String) : List Article → Option Article
  | [] => none
  | a :: rest => if a.id = k then some a else look k rest

/-- The map's ids are pairwise distinct. -/
def IdsNodup (m : List Article) : Prop := (m.map Article.id).Nodup

/-- The last element of `xs` satisfying `p` and having id `k` — the value
a left-to-right sequence of conditional `Map.set` calls leaves at key `k`. -/
def lastFiltered (p : Article → Bool) (k : Option String) : List Article → Option Article
  | [] => none
  | a :: rest => (lastFiltered p k rest).or (if p a && a.id = k then some a else none)

/-- A conditional insertion pass: `for (const a of xs) if (p a) byId.set(a.id, a)`. -/
def setPass (p : Article → Bool) (xs : List Article) (m : List Article) : List Article :=
  xs.foldl (fun acc a => if p a then setById a acc else acc) m

theorem look_setById (k : Option String) (a : Article) (m : List Article) :
    look k (setById a m) = if a.id = k then some a else look k m := by
  induction m with
  | nil =>
    by_cases h : a.id = k <;> simp [setById, look, h]
  | cons b rest ih =>
    show look k (if b.id = a.id then a :: rest else b :: setById a rest) = _
    by_cases hb : b.id = a.id
    · rw [if_pos hb]
      show (if a.id = k then some a else look k rest) = _
      by_cases hak : a.id = k
      · rw [if_pos hak, if_pos hak]
      · rw [if_neg hak, if_neg hak]
        show look k rest = if b.id = k then some b else look k rest
        rw [if_neg (fun h => hak (hb.symm.trans h))]
    · rw [if_neg hb]
      show (if b.id = k then some b else look k (setById a rest)) = _
      by_cases hbk : b.id = k
      · have hak : ¬ a.id = k := fun h => hb (hbk.trans h.symm)
        rw [if_pos hbk, if_neg hak]
        show _ = if b.id = k then some b else look k rest
        rw [if_pos hbk]
      · rw [if_neg hbk, ih]
        by_cases hak : a.id = k
        · rw [if_pos hak, if_pos hak]
        · rw [if_neg hak, if_neg hak]
          show _ = if b.id = k then some b else look k rest
          rw [if_neg hbk]

theorem mem_setById {c a : Article} {m : List Article} (h : c ∈ setById a m) :
    c = a ∨ c ∈ m := by
  induction m with
  | nil => simpa [setById] using h
  | cons b rest ih =>
    by_cases hb : b.id = a.id
    · simp only [setById, if_pos hb, List.mem_cons] at h
      rcases h with h | h
      · exact Or.inl h
      · exact Or.inr (List.mem_cons_of_mem _ h)
    · simp only [setById, if_neg hb, List.mem_cons] at h
      rcases h with h | h
      · exact Or.inr (by simp [h])
      · rcases ih h with h' | h'
        · exact Or.inl h'
        · exact Or.inr (List.mem_cons_of_mem _ h')

theorem id_mem_setById {x : Option String} {a : Article} {m : List Article}
    (h : x ∈ (setById a m).map Article.id) :
    x = a.id ∨ x ∈ m.map Article.id := by
  simp only [List.mem_map] at h
  rcases h with ⟨c, hc, hx⟩
  rcases mem_setById hc with h' | h'
  · exact Or.inl (h' ▸ hx ▸ rfl)
  · exact Or.inr (List.mem_map.mpr ⟨c, h', hx⟩)

theorem idsNodup_setById {a : Article} {m : List Article} (h : IdsNodup m) :
    IdsNodup (setById a m) := by
  induction m with
  | nil => simp [IdsNodup, setById]
  | cons b rest ih =>
    unfold IdsNodup at h ih ⊢
    rcases List.nodup_cons.mp h with ⟨hb, hrest⟩
    show (List.map Article.id (if b.id = a.id then a :: rest else b :: setById a rest)).Nodup
    by_cases hba : b.id = a.id
    · rw [if_pos hba, List.map_cons, List.nodup_cons]
      exact ⟨hba ▸ hb, hrest⟩
    · rw [if_neg hba, List.map_cons, List.nodup_cons]
      refine ⟨?_, ih hrest⟩
      intro hc
      rcases id_mem_setById hc with h' | h'
      · exact hba h'
      · exact hb h'

theorem idsNodup_setPass (p : Article → Bool) (xs : List Article) {m : List Article}
    (h : IdsNodup m) : IdsNodup (setPass p xs m) := by
  induction xs generalizing m with
  | nil => exact h
  | cons a rest ih =>
    show IdsNodup (setPass p rest _)
    by_cases hp : p a = true
    · simpa [setPass, hp] using ih (idsNodup_setById h)
    · simpa [setPass, hp] using ih h

theorem mem_setPass {c : Article} (p : Article → Bool) (xs : List Article) {m : List Article}
    (h : c ∈ setPass p xs m) : c ∈ m ∨ (c ∈ xs ∧ p c = true) := by
  induction xs generalizing m with
  | nil => exact Or.inl h
  | cons a rest ih =>
    by_cases hp : p a = true
    · have h' : c ∈ setPass p rest (setById a m) := by simpa [setPass, hp] using h
      rcases ih h' with h'' | h''
      · rcases mem_setById h'' with rfl | hcm
        · exact Or.inr ⟨List.mem_cons_self _ _, hp⟩
        · exact Or.inl hcm
      · exact Or.inr ⟨List.mem_cons_of_mem _ h''.1, h''.2⟩
    · have h' : c ∈ setPass p rest m := by simpa [setPass, hp] using h
      rcases ih h' with h'' | h''
      · exact Or.inl h''
      · exact Or.inr ⟨List.mem_cons_of_mem _ h''.1, h''.2⟩

theorem look_setPass (p : Article → Bool) (k : Option String)
    (xs : List Article) (m : List Article) :
    look k (setPass p xs m) = (lastFiltered p k xs).or (look k m) := by
  induction xs generalizing m with
  | nil => simp [setPass, lastFiltered]
  | cons a rest ih =>
    show look k (setPass p rest (if p a = true then setById a m else m))
      = ((lastFiltered p k rest).or (if p a && a.id = k then some a else none)).or (look k m)
    by_cases hp : p a = true
    · rw [if_pos hp, ih, look_setById]
      by_cases hk : a.id = k
      · rw [if_pos hk, if_pos (by rw [hp, hk] ; simp)]
        cases lastFiltered p k rest <;> simp [Option.or]
      · rw [if_neg hk, if_neg (by simp [hk]), Option.or_none]
    · rw [if_neg hp, ih, if_neg (by simp [hp]), Option.or_none]

theorem look_eq_some_iff {m : List Article} (h : IdsNodup m) (k : Option String) (v : Article) :
    look k m = some v ↔ v ∈ m ∧ v.id = k := by
  induction m with
  | nil => simp [look]
  | cons a rest ih =>
    rcases List.nodup_cons.mp h with ⟨ha, hrest⟩
    by_cases hk : a.id = k
    · simp only [look, if_pos hk]
      constructor
      · rintro h'
        injection h' with h'
        exact ⟨by simp [h'.symm], h' ▸ hk⟩
      · rintro ⟨hv, hvk⟩
        rcases List.mem_cons.mp hv with rfl | hv'
        · rfl
        · exact absurd (show a.id ∈ rest.map Article.id from
            hk ▸ hvk ▸ List.mem_map.mpr ⟨v, hv', rfl⟩) ha
    · simp only [look, if_neg hk]
      rw [ih hrest]
      constructor
      · rintro ⟨hv, hvk⟩
        exact ⟨List.mem_cons_of_mem _ hv, hvk⟩
      · rintro ⟨hv, hvk⟩
        rcases List.mem_cons.mp hv with rfl | hv'
        · exact absurd hvk hk
        · exact ⟨hv', hvk⟩

theorem look_eq_of_perm {m m' : List Article} (hp : m.Perm m')
    (h : IdsNodup m) (k : Option String) : look k m = look k m' := by
  have h' : IdsNodup m' := ((hp.map Article.id).nodup_iff).mp h
  cases hv : look k m with
  | none =>
    cases hv' : look k m' with
    | none => rfl
    | some v =>
      rcases (look_eq_some_iff h' k v).mp hv' with ⟨hm, hk⟩
      have : look k m = some v := (look_eq_some_iff h k v).mpr ⟨hp.symm.subset hm, hk⟩
      rw [hv] at this
      exact absurd this (by simp)
  | some v =>
    rcases (look_eq_some_iff h k v).mp hv with ⟨hm, hk⟩
    exact ((look_eq_some_iff h' k v).mpr ⟨hp.subset hm, hk⟩).symm

theorem look_eq_none_iff (k : Option String) (l : List Article) :
    look k l = none ↔ ∀ v ∈ l, v.id ≠ k := by
  induction l with
  | nil => simp [look]
  | cons a rest ih =>
    by_cases h : a.id = k
    · simp [look, if_pos h, h]
    · simp only [look, if_neg h, ih, List.mem_cons]
      constructor
      · rintro h' v (rfl | hv)
        · exact h
        · exact h' v hv
      · intro h' v hv
        exact h' v (Or.inr hv)

theorem lastFiltered_eq_some {p : Article → Bool} {k : Option String}
    {l : List Article} {v : Article} (h : lastFiltered p k l = some v) :
    v ∈ l ∧ p v = true ∧ v.id = k := by
  induction l with
  | nil => simp [lastFiltered] at h
  | cons a rest ih =>
    simp only [lastFiltered] at h
    cases hr : lastFiltered p k rest with
    | some w =>
      rw [hr] at h
      have : w = v := by
        cases hpa : (p a && decide (a.id = k)) <;> simp [hpa, Option.or] at h <;> exact h
      rcases ih (hr.trans (by rw [this])) with ⟨h1, h2, h3⟩
      exact ⟨List.mem_cons_of_mem _ h1, h2, h3⟩
    | none =>
      rw [hr] at h
      by_cases hpa : (p a && decide (a.id = k)) = true
      · rw [if_pos hpa] at h
        have hv : a = v := by simpa [Option.or] using h
        have h12 : p a = true ∧ a.id = k := by simpa using hpa
        exact ⟨by simp [hv.symm], hv ▸ h12.1, hv ▸ h12.2⟩
      · rw [if_neg hpa] at h
        simp [Option.or] at h

theorem lastFiltered_eq_none_of {p : Article → Bool} {k : Option String}
    {l : List Article} (h : ∀ v ∈ l, v.id ≠ k) :
    lastFiltered p k l = none := by
  induction l with
  | nil => rfl
  | cons a rest ih =>
    simp only [lastFiltered]
    rw [ih (fun v hv => h v (List.mem_cons_of_mem _ hv))]
    rw [if_neg (by simp [h a (List.mem_cons_self _ _)])]
    rfl

/-- On a map with pairwise-distinct ids, the last filtered write at key
`k` is the unique record at `k` when it passes the filter, else nothing. -/
theorem lastFiltered_of_idsNodup {m : List Article} (h : IdsNodup m)
    (p : Article → Bool) (k : Option String) :
    lastFiltered p k m
      = match look k m with
        | some v => if p v then some v else none
        | none => none := by
  induction m with
  | nil => rfl
  | cons a rest ih =>
    rcases List.nodup_cons.mp h with ⟨ha, hrest⟩
    by_cases hk : a.id = k
    · have hnone : lastFiltered p k rest = none := by
        apply lastFiltered_eq_none_of
        intro v hv hvk
        exact ha (hk ▸ hvk ▸ List.mem_map.mpr ⟨v, hv, rfl⟩)
      simp only [lastFiltered, hnone, look, if_pos hk]
      by_cases hpa : p a = true
      · rw [if_pos (by simp [hpa, hk])]
        simp [hpa, Option.or]
      · rw [if_neg (by simp [hpa])]
        simp [hpa, Option.or]
    · simp only [lastFiltered, look, if_neg hk, ih hrest]
      rw [if_neg (by simp [hk])]
      cases look k rest with
      | none => rfl
      | some v => exact Option.or_none

/-- Two maps with pairwise-distinct ids and identical lookups hold the
same records, up to order. -/
theorem perm_of_look_eq : ∀ {m m' : List Article}, IdsNodup m → IdsNodup m' →
    (∀ k, look k m = look k m') → m.Perm m'
  | [], [], _, _, _ => List.Perm.refl _
  | [], c :: rest, _, _, hl => by
    have h1 : look c.id ([] : List Article) = some c := by
      rw [hl c.id]
      show (if c.id = c.id then some c else look c.id rest) = some c
      rw [if_pos rfl]
    simp [look] at h1
  | a :: rest, m', h, h', hl => by
    rcases List.nodup_cons.mp h with ⟨ha, hrest⟩
    have hm : IdsNodup (a :: rest) := h
    have hlook_a : look a.id (a :: rest) = some a := by
      show (if a.id = a.id then some a else look a.id rest) = some a
      rw [if_pos rfl]
    have hmem : a ∈ m' := ((look_eq_some_iff h' a.id a).mp ((hl a.id).symm.trans hlook_a)).1
    have hperm' : m'.Perm (a :: m'.erase a) := List.perm_cons_erase hmem
    have hnodup_list : m'.Nodup := List.Nodup.of_map Article.id h'
    have herase_nodup : IdsNodup (m'.erase a) :=
      List.Nodup.sublist ((m'.erase_sublist a).map Article.id) h'
    have hkey : ∀ k, look k rest = look k (m'.erase a) := by
      intro k
      by_cases hk : a.id = k
      · subst hk
        have h1 : look a.id rest = none := by
          rw [look_eq_none_iff]
          intro v hv hvk
          exact ha (hvk ▸ List.mem_map.mpr ⟨v, hv, rfl⟩)
        have h2 : look a.id (m'.erase a) = none := by
          rw [look_eq_none_iff]
          intro v hv hvk
          have hv' : v ∈ m' := (m'.erase_sublist a).subset hv
          have : v = a := by
            have := (look_eq_some_iff h' a.id v).mpr ⟨hv', hvk⟩
            rw [← hl a.id, hlook_a] at this
            injection this.symm
          rw [this] at hv
          exact (List.Nodup.mem_erase_iff hnodup_list).mp hv |>.1 rfl
        rw [h1, h2]
      · have h1 : look k (a :: rest) = look k rest := by
          show (if a.id = k then some a else look k rest) = look k rest
          rw [if_neg hk]
        rw [← h1, hl k]
        cases hkv : look k m' with
        | none =>
          rw [look_eq_none_iff] at hkv
          symm
          rw [look_eq_none_iff]
          exact fun v hv => hkv v ((m'.erase_sublist a).subset hv)
        | some v =>
          rcases (look_eq_some_iff h' k v).mp hkv with ⟨hv, hvk⟩
          have hva : v ≠ a := fun hva => hk (hva ▸ hvk)
          have : v ∈ m'.erase a := (List.Nodup.mem_erase_iff hnodup_list).mpr ⟨hva, hv⟩
          exact ((look_eq_some_iff herase_nodup k v).mpr ⟨this, hvk⟩).symm
    have := perm_of_look_eq hrest herase_nodup hkey
    exact (this.cons a).trans hperm'.symm

/-! ## The final sort

`[...byId.values()].sort((a, b) => new Date(b.publishedAt || 0) - new
Date(a.publishedAt || 0))` (scraper.js 523–525). `Array.prototype.sort`
is stable; with a consistent comparator its output is the unique stable
sort, reproduced here by insertion sort with `le a b` = "the comparator
called on `(a, b)` returns ≤ 0 (or `NaN`, which sorting treats as 0)". -/

/-- Stable insertion: `x` (the earlier element) goes in front of the first
element `y` it may precede (`le x y`). -/
def insertStable (le : Article → Article → Bool) (x : Article) : List Article → List Article
  | [] => [x]
  | y :: ys => if le x y then x :: y :: ys else y :: insertStable le x ys

/-- Stable sort of the whole list by repeated insertion. -/
def sortStable (le : Article → Article → Bool) (xs : List Article) : List Article :=
  xs.foldr (insertStable le) []

theorem perm_insertStable (le : Article → Article → Bool) (x : Article) (l : List Article) :
    (insertStable le x l).Perm (x :: l) := by
  induction l with
  | nil => simp [insertStable]
  | cons y ys ih =>
    show (if le x y then x :: y :: ys else y :: insertStable le x ys).Perm _
    by_cases h : le x y = true
    · rw [if_pos h]
    · rw [if_neg h]
      exact (ih.cons y).trans (List.Perm.swap x y ys)

theorem perm_sortStable (le : Article → Article → Bool) (xs : List Article) :
    (sortStable le xs).Perm xs := by
  induction xs with
  | nil => simp [sortStable]
  | cons a rest ih =>
    exact (perm_insertStable le a (sortStable le rest)).trans (ih.cons a)

theorem head?_insertStable (le : Article → Article → Bool) (x : Article) (l : List Article) :
    (insertStable le x l).head? = some x ∨ (insertStable le x l).head? = l.head? := by
  cases l with
  | nil => exact Or.inl rfl
  | cons y ys =>
    by_cases h : le x y = true
    · left
      show (if le x y then x :: y :: ys else y :: insertStable le x ys).head? = some x
      rw [if_pos h]
      rfl
    · right
      show (if le x y then x :: y :: ys else y :: insertStable le x ys).head? = (y :: ys).head?
      rw [if_neg h]
      rfl

theorem chain'_insertStable (le : Article → Article → Bool) (x : Article) (l : List Article)
    (hc : l.Chain' (fun a b => le a b = true))
    (htot : ∀ y ∈ l, le x y = true ∨ le y x = true) :
    (insertStable le x l).Chain' (fun a b => le a b = true) := by
  induction l with
  | nil => simp [insertStable]
  | cons y ys ih =>
    show (if le x y then x :: y :: ys else y :: insertStable le x ys).Chain' _
    by_cases hxy : le x y = true
    · rw [if_pos hxy]
      exact List.chain'_cons.mpr ⟨hxy, hc⟩
    · rw [if_neg hxy]
      have hyx : le y x = true := (htot y (List.mem_cons_self y ys)).resolve_left hxy
      have hins := ih hc.tail (fun z hz => htot z (List.mem_cons_of_mem _ hz))
      rw [List.chain'_cons']
      refine ⟨?_, hins⟩
      intro z hz
      rcases head?_insertStable le x ys with h | h
      · rw [h] at hz
        have hx : x = z := by simpa using hz
        exact hx ▸ hyx
      · rw [h] at hz
        cases ys with
        | nil => simp at hz
        | cons w ws =>
          have hw : w = z := by simpa using hz
          exact hw ▸ (List.chain'_cons.mp hc).1

theorem chain'_sortStable (le : Article → Article → Bool) (xs : List Article)
    (htot : ∀ a ∈ xs, ∀ b ∈ xs, le a b = true ∨ le b a = true) :
    (sortStable le xs).Chain' (fun a b => le a b = true) := by
  induction xs with
  | nil => simp [sortStable]
  | cons a rest ih =>
    show (insertStable le a (sortStable le rest)).Chain' _
    apply chain'_insertStable
    · exact ih (fun u hu v hv =>
        htot u (List.mem_cons_of_mem _ hu) v (List.mem_cons_of_mem _ hv))
    · intro y hy
      have hy' : y ∈ rest := (perm_sortStable le rest).subset hy
      exact htot a (List.mem_cons_self _ _) y (List.mem_cons_of_mem _ hy')

/-! ## The merge & eviction engine (scraper.js lines 507–525) -/

/-- The value the sort comparator reads from a record:
`new Date(x.publishedAt || 0).getTime()` — a falsy `publishedAt` is the
epoch (`0`); a truthy one parses to its timestamp, or `NaN` (`none`). -/
def sortVal (parse : String → Option Int) (a : Article) : Option Int :=
  if truthy a.publishedAt then parse (a.publishedAt.getD "") else some 0

/-- May `a` stay in front of `b` under the comparator
`(a, b) => new Date(b.publishedAt || 0) - new Date(a.publishedAt || 0)`:
true iff the comparator value is ≤ 0, a `NaN` comparison counting as 0. -/
def keepBefore (parse : String → Option Int) (a b : Article) : Bool :=
  match sortVal parse a, sortVal parse b with
  | some ta, some tb => decide (tb ≤ ta)
  | _, _ => true

/-- Retention test for an existing record (scraper.js 510–515):
`const ts = a.publishedAt ? new Date(a.publishedAt).getTime() : Date.now();
if (!a.publishedAt || ts > cutoff) byId.set(a.id, a);`
— retained when `publishedAt` is falsy, or parses to a timestamp strictly
newer than the cutoff; an unparseable date gives `NaN`, which fails the
`>` comparison, so the record is dropped. -/
def keepExisting (parse : String → Option Int) (cutoff : Int) (a : Article) : Bool :=
  if truthy a.publishedAt then
    match parse (a.publishedAt.getD "") with
    | none => false
    | some ts => decide (ts > cutoff)
  else true

/-- `if (a.id && a.title)` (scraper.js 518): a new draft is inserted only
when both its id and its title are truthy. -/
def draftOk (a : Article) : Bool := truthy a.id && truthy a.title

/-- The `byId` map after both insertion passes of the merge step
(scraper.js 508–521): first the retained existing records, then the
acceptable new drafts, which insert at the end or overwrite in place. -/
def mergeMap (hours : Int) (parse : String → Option Int) (now : Int)
    (existing newDrafts : List Article) : List Article :=
  setPass draftOk newDrafts
    (setPass (keepExisting parse (now - hours * msPerHour)) existing [])

/-- The merge & eviction step of `run` (scraper.js 507–525): retain
still-recent existing records into the id-keyed map, overwrite/insert the
acceptable new drafts, then sort the map's values by published timestamp
descending (falsy treated as the epoch). `hours` generalises the
`LOOKBACK_HOURS` constant the code reads. -/
def mergeArticles (hours : Int) (parse : String → Option Int) (now : Int)
    (existing newDrafts : List Article) : List Article :=
  sortStable (keepBefore parse) (mergeMap hours parse now existing newDrafts)

theorem idsNodup_mergeMap (hours : Int) (parse : String → Option Int) (now : Int)
    (existing newDrafts : List Article) :
    IdsNodup (mergeMap hours parse now existing newDrafts) :=
  idsNodup_setPass _ _ (idsNodup_setPass _ _ (by simp [IdsNodup]))

theorem look_mergeMap (hours : Int) (parse : String → Option Int) (now : Int)
    (existing newDrafts : List Article) (k : Option String) :
    look k (mergeMap hours parse now existing newDrafts)
      = (lastFiltered draftOk k newDrafts).or
          (lastFiltered (keepExisting parse (now - hours * msPerHour)) k existing) := by
  unfold mergeMap
  rw [look_setPass, look_setPass]
  show (lastFiltered draftOk k newDrafts).or
      ((lastFiltered (keepExisting parse (now - hours * msPerHour)) k existing).or none) = _
  rw [Option.or_none]

theorem perm_mergeArticles_mergeMap (hours : Int) (parse : String → Option Int) (now : Int)
    (existing newDrafts : List Article) :
    (mergeArticles hours parse now existing newDrafts).Perm
      (mergeMap hours parse now existing newDrafts) :=
  perm_sortStable _ _

theorem idsNodup_mergeArticles (hours : Int) (parse : String → Option Int) (now : Int)
    (existing newDrafts : List Article) :
    IdsNodup (mergeArticles hours parse now existing newDrafts) :=
  (((perm_mergeArticles_mergeMap hours parse now existing newDrafts).map
      Article.id).nodup_iff).mpr (idsNodup_mergeMap hours parse now existing newDrafts)

theorem look_mergeArticles (hours : Int) (parse : String → Option Int) (now : Int)
    (existing newDrafts : List Article) (k : Option String) :
    look k (mergeArticles hours parse now existing newDrafts)
      = look k (mergeMap hours parse now existing newDrafts) :=
  look_eq_of_perm (perm_mergeArticles_mergeMap hours parse now existing newDrafts)
    (idsNodup_mergeArticles hours parse now existing newDrafts) k

/-! ## Concrete host data for witnesses and counterexamples -/

/-- A concrete fragment of the host date parser (`new Date(s).getTime()`)
for closed witnesses: the epoch ISO string parses to `0`, the 2024 ISO
string to its millisecond timestamp, everything else is `NaN`. -/
def demoParse : String → Option Int := fun s =>
  if s = "1970-01-01T00:00:00.000Z" then some 0
  else if s = "2024-01-01T00:00:00.000Z" then some 1704067200000
  else if s = "2023-12-30T19:00:00.000Z" then some 1703962800000
  else none

/-- A concrete `Date.now()`: one hour after 2024-01-01T00:00:00Z. -/
def demoNow : Int := 1704067200000 + 3600000

/-- A template record to build concrete articles from. -/
def articleBase : Article :=
  { id := some "base", title := some "Base", author := none, source := "S",
    sourceUrl := some "https://s/base", publishedAt := none, excerpt := none,
    content := "", scrapedAt := "2024-01-01T01:00:00.000Z" }

/-- A draft whose `publishedAt` parses to the epoch (timestamp `0`). -/
def dZero : Article :=
  { articleBase with
    id := some "z"
    title := some "Z"
    publishedAt := some "1970-01-01T00:00:00.000Z" }

/-- A draft with a null `publishedAt`. -/
def dNull : Article :=
  { articleBase with id := some "n", title := some "N", publishedAt := none }

/-- C1, counterexample: with no prior dataset and the two drafts
`[dZero, dNull]`, one merge yields `[dZero, dNull]` but merging its result
with the same drafts again yields `[dNull, dZero]` — the epoch-dated
record is evicted from the intermediate dataset and re-appended after the
null-dated one, and both sort with key `0`, so the stable sort preserves
the flipped order. Hence `merge(merge(D,N,w),N,w) ≠ merge(D,N,w)`. -/
theorem merge_not_idempotent_cex :
    mergeArticles 26 demoParse demoNow
        (mergeArticles 26 demoParse demoNow [] [dZero, dNull]) [dZero, dNull]
      ≠ mergeArticles 26 demoParse demoNow [] [dZero, dNull] := by
  decide

/-- C1 (amended): applying the merge step twice with the same drafts and
the same clock yields the same article records as applying it once — as a
multiset (same records, same multiplicities); the order within the list
can differ when records tie on the sort key. -/
theorem merge_idem_upto_order (hours : Int) (parse : String → Option Int) (now : Int)
    (existing newDrafts : List Article) :
    (mergeArticles hours parse now
        (mergeArticles hours parse now existing newDrafts) newDrafts).Perm
      (mergeArticles hours parse now existing newDrafts) := by
  have hperm2 := perm_mergeArticles_mergeMap hours parse now
    (mergeArticles hours parse now existing newDrafts) newDrafts
  have hperm1 := perm_mergeArticles_mergeMap hours parse now existing newDrafts
  have hmaps : (mergeMap hours parse now
      (mergeArticles hours parse now existing newDrafts) newDrafts).Perm
        (mergeMap hours parse now existing newDrafts) := by
    apply perm_of_look_eq (idsNodup_mergeMap _ _ _ _ _) (idsNodup_mergeMap _ _ _ _ _)
    intro k
    rw [look_mergeMap, look_mergeMap]
    cases hd : lastFiltered draftOk k newDrafts with
    | some v => rfl
    | none =>
      show Option.or none _ = Option.or none _
      have hout1 : look k (mergeArticles hours parse now existing newDrafts)
          = (lastFiltered (keepExisting parse (now - hours * msPerHour)) k existing) := by
        rw [look_mergeArticles, look_mergeMap, hd]
        rfl
      rw [lastFiltered_of_idsNodup (idsNodup_mergeArticles hours parse now existing newDrafts),
        hout1]
      cases he : lastFiltered (keepExisting parse (now - hours * msPerHour)) k existing with
      | none => rfl
      | some v =>
        rcases lastFiltered_eq_some he with ⟨_, hkeep, _⟩
        simp [hkeep]
  exact (hperm2.trans hmaps).trans hperm1.symm

/-! ## Claim C2: the dataset invariant of the merged output -/

/-- A draft whose `publishedAt` parses to 2024-01-01T00:00:00Z, one hour
before `demoNow`. -/
def dRecent : Article :=
  { articleBase with
    id := some "r"
    title := some "R"
    publishedAt := some "2024-01-01T00:00:00.000Z" }

/-- The effective timestamp claim C2 ascribes to a record: its parsed
`publishedAt` when present, "now" when null. -/
def specEffTs (parse : String → Option Int) (now : Int) (a : Article) : Option Int :=
  if truthy a.publishedAt then parse (a.publishedAt.getD "") else some now

/-- Claim C2's ordering property: every adjacent pair of the list has
defined effective timestamps and the earlier one is ≥ the later one. -/
def specOrdered (parse : String → Option Int) (now : Int) (l : List Article) : Prop :=
  l.Chain' (fun a b => ∃ ta tb, specEffTs parse now a = some ta ∧
    specEffTs parse now b = some tb ∧ tb ≤ ta)

/-- The key the code actually sorts by, defaulted: parsed `publishedAt`
when truthy, the epoch (`0`) when falsy. -/
def effKey (parse : String → Option Int) (a : Article) : Int :=
  (sortVal parse a).getD 0

/-- C2, counterexample: merging the drafts `[dRecent, dNull]` into an
empty dataset yields `[dRecent, dNull]` — the null-dated record sorts with
key `0`, i.e. to the back, not (as the claim says, treating null as "now")
to the front: the adjacent pair has effective timestamps `now - 1h`
followed by `now`, violating the claimed descending order. -/
theorem merge_ordering_cex :
    ¬ specOrdered demoParse demoNow (mergeArticles 26 demoParse demoNow [] [dRecent, dNull]) := by
  have hout : mergeArticles 26 demoParse demoNow [] [dRecent, dNull] = [dRecent, dNull] := by
    decide
  rw [hout]
  intro h
  rcases (List.chain'_cons.mp h).1 with ⟨ta, tb, hta, htb, hle⟩
  have h1 : specEffTs demoParse demoNow dRecent = some 1704067200000 := by decide
  have h2 : specEffTs demoParse demoNow dNull = some demoNow := by decide
  rw [h1] at hta
  rw [h2] at htb
  have hta' : ta = 1704067200000 := (Option.some.inj hta).symm
  have htb' : tb = demoNow := (Option.some.inj htb).symm
  rw [hta', htb'] at hle
  simp only [demoNow] at hle
  omega

theorem mem_mergeMap {hours : Int} {parse : String → Option Int} {now : Int}
    {existing newDrafts : List Article} {c : Article}
    (hc : c ∈ mergeMap hours parse now existing newDrafts) :
    c ∈ existing ∨ c ∈ newDrafts := by
  rcases mem_setPass _ _ hc with h | h
  · rcases mem_setPass _ _ h with h' | h'
    · simp at h'
    · exact Or.inl h'.1
  · exact Or.inr h.1

theorem chain'_imp_of_mem {R S : Article → Article → Prop} :
    ∀ {l : List Article}, l.Chain' R →
      (∀ a ∈ l, ∀ b ∈ l, R a b → S a b) → l.Chain' S
  | [], _, _ => List.chain'_nil
  | [a], _, _ => List.chain'_singleton a
  | a :: b :: t, hc, himp => by
    rcases List.chain'_cons.mp hc with ⟨hab, hrest⟩
    refine List.chain'_cons.mpr ⟨?_, ?_⟩
    · exact himp a (List.mem_cons_self _ _) b (List.mem_cons_of_mem _ (List.mem_cons_self _ _)) hab
    · exact chain'_imp_of_mem hrest
        (fun x hx y hy => himp x (List.mem_cons_of_mem _ hx) y (List.mem_cons_of_mem _ hy))

/-- C2 (amended): the merged dataset never holds two records with the same
identifier; and whenever every input record's `publishedAt` is absent or
parseable, the output is ordered by effective key descending, where the
effective key is the parsed timestamp for a present `publishedAt` and the
epoch (`0`) — not "now" — for an absent one, so null-dated records sort
last among nonnegative timestamps. -/
theorem merge_dataset_invariant (hours : Int) (parse : String → Option Int) (now : Int)
    (existing newDrafts : List Article)
    (hD : ∀ a ∈ existing, (sortVal parse a).isSome = true)
    (hN : ∀ a ∈ newDrafts, (sortVal parse a).isSome = true) :
    IdsNodup (mergeArticles hours parse now existing newDrafts) ∧
    (mergeArticles hours parse now existing newDrafts).Chain'
      (fun a b => effKey parse b ≤ effKey parse a) := by
  refine ⟨idsNodup_mergeArticles hours parse now existing newDrafts, ?_⟩
  have hmem : ∀ a ∈ mergeMap hours parse now existing newDrafts,
      (sortVal parse a).isSome = true := by
    intro a ha
    rcases mem_mergeMap ha with h | h
    · exact hD a h
    · exact hN a h
  have hchain : (mergeArticles hours parse now existing newDrafts).Chain'
      (fun a b => keepBefore parse a b = true) := by
    apply chain'_sortStable
    intro a ha b hb
    rcases Option.isSome_iff_exists.mp (hmem a ha) with ⟨ta, hta⟩
    rcases Option.isSome_iff_exists.mp (hmem b hb) with ⟨tb, htb⟩
    unfold keepBefore
    rw [hta, htb]
    rcases Int.le_total tb ta with h | h
    · exact Or.inl (by simpa using h)
    · exact Or.inr (by simpa using h)
  have hsub : ∀ a ∈ mergeArticles hours parse now existing newDrafts,
      (sortVal parse a).isSome = true := by
    intro a ha
    exact hmem a ((perm_mergeArticles_mergeMap hours parse now existing newDrafts).subset ha)
  apply chain'_imp_of_mem hchain
  intro a ha b hb hab
  rcases Option.isSome_iff_exists.mp (hsub a ha) with ⟨ta, hta⟩
  rcases Option.isSome_iff_exists.mp (hsub b hb) with ⟨tb, htb⟩
  unfold keepBefore at hab
  rw [hta, htb] at hab
  have : tb ≤ ta := by simpa using hab
  unfold effKey
  rw [hta, htb]
  simpa using this

/-- Witness for the amended C2 at a concrete input: one stale existing
record and two drafts, all dates parseable or null. -/
theorem merge_dataset_invariant_witness :
    IdsNodup (mergeArticles 26 demoParse demoNow [dZero] [dRecent, dNull]) ∧
    (mergeArticles 26 demoParse demoNow [dZero] [dRecent, dNull]).Chain'
      (fun a b => effKey demoParse b ≤ effKey demoParse a) :=
  merge_dataset_invariant 26 demoParse demoNow [dZero] [dRecent, dNull]
    (by decide) (by decide)

/-! ## Claims C4, C5, C10: overwrite-wins and eviction -/

/-- An existing record sharing id `"r"` with `dRecent` but with different
fields. -/
def dOldVersion : Article :=
  { articleBase with
    id := some "r"
    title := some "OldR"
    content := "stale" }

/-- The end-to-end example's stale existing record `a1`: published 30
hours before `demoNow`. -/
def dA1 : Article :=
  { articleBase with
    id := some "a1"
    title := some "A"
    publishedAt := some "2023-12-30T19:00:00.000Z" }

/-- The end-to-end example's new draft with the fresh identifier `b2`. -/
def dB2 : Article :=
  { articleBase with
    id := some "b2"
    title := some "X"
    sourceUrl := some "https://s/x" }

/-- A record whose `publishedAt` is a non-empty string that does not parse. -/
def dBadDate : Article :=
  { articleBase with
    id := some "bad"
    title := some "Bad"
    publishedAt := some "not-a-date" }

/-- A record that fails the retention test and whose id is not among the
new drafts is absent from the merged dataset. -/
theorem not_mem_merge_of_not_kept {hours : Int} {parse : String → Option Int} {now : Int}
    {existing newDrafts : List Article} {r : Article}
    (hkeep : keepExisting parse (now - hours * msPerHour) r = false)
    (hid : ∀ m ∈ newDrafts, m.id ≠ r.id) :
    r ∉ mergeArticles hours parse now existing newDrafts := by
  intro hmem
  have hmem' : r ∈ mergeMap hours parse now existing newDrafts :=
    (perm_mergeArticles_mergeMap hours parse now existing newDrafts).subset hmem
  rcases mem_setPass _ _ hmem' with h | h
  · rcases mem_setPass _ _ h with h' | h'
    · simp at h'
    · rw [hkeep] at h'
      exact Bool.false_ne_true h'.2
  · exact hid r h.1 rfl

/-- C4: when a new draft with truthy id and title is the last acceptable
draft carrying its identifier, the merged dataset's record at that
identifier is the draft itself — never the existing record it shares the
identifier with (when the two differ). -/
theorem merge_overwrite_wins (hours : Int) (parse : String → Option Int) (now : Int)
    (existing newDrafts : List Article) (e n : Article)
    (he : e ∈ existing) (hn : n ∈ newDrafts)
    (hid : n.id = e.id) (hok : draftOk n = true)
    (hlast : lastFiltered draftOk e.id newDrafts = some n) :
    look e.id (mergeArticles hours parse now existing newDrafts) = some n ∧
    (n ≠ e → look e.id (mergeArticles hours parse now existing newDrafts) ≠ some e) := by
  have hfirst : look e.id (mergeArticles hours parse now existing newDrafts) = some n := by
    rw [look_mergeArticles, look_mergeMap, hlast]
    rfl
  refine ⟨hfirst, fun hne hcontra => ?_⟩
  rw [hfirst] at hcontra
  exact hne (Option.some.inj hcontra)

/-- C4 witness: an existing record and a single new draft share id `"r"`;
the merged record at `"r"` is the draft. -/
theorem merge_overwrite_wins_witness :
    look (some "r") (mergeArticles 26 demoParse demoNow [dOldVersion] [dRecent]) = some dRecent ∧
    (dRecent ≠ dOldVersion →
      look (some "r") (mergeArticles 26 demoParse demoNow [dOldVersion] [dRecent])
        ≠ some dOldVersion) :=
  merge_overwrite_wins 26 demoParse demoNow [dOldVersion] [dRecent] dOldVersion dRecent
    (by decide) (by decide) (by decide) (by decide) (by decide)

/-- C5: an existing record whose `publishedAt` parses to a timestamp
strictly older than the lookback window and whose identifier appears on no
new draft is absent from the merged dataset. -/
theorem merge_evicts_stale (hours : Int) (parse : String → Option Int) (now : Int)
    (existing newDrafts : List Article) (r : Article) (s : String) (ts : Int)
    (hr : r ∈ existing)
    (hpub : r.publishedAt = some s) (hs : s ≠ "")
    (hparse : parse s = some ts)
    (hold : now - ts > hours * msPerHour)
    (hid : ∀ m ∈ newDrafts, m.id ≠ r.id) :
    r ∉ mergeArticles hours parse now existing newDrafts := by
  apply not_mem_merge_of_not_kept _ hid
  unfold keepExisting
  rw [hpub, if_pos (by simp [truthy, hs])]
  rw [show (some s).getD "" = s from rfl, hparse]
  simp only [decide_eq_false_iff_not]
  omega

/-- C5 witness — the spec's end-to-end example: existing `[a1]` published
30h ago, new draft `b2`; with the 26h window, `a1` is evicted and the
merged dataset is exactly `[b2]`. -/
theorem merge_evicts_stale_witness :
    dA1 ∉ mergeArticles 26 demoParse demoNow [dA1] [dB2] ∧
    mergeArticles 26 demoParse demoNow [dA1] [dB2] = [dB2] :=
  ⟨merge_evicts_stale 26 demoParse demoNow [dA1] [dB2] dA1 "2023-12-30T19:00:00.000Z"
      1703962800000 (by decide) rfl (by decide) (by decide) (by decide) (by decide),
    by decide⟩

/-- C10: an existing record whose `publishedAt` is a non-empty string that
does not parse is never retained (its `NaN` timestamp fails the strict
`>` comparison), hence absent from the merge unless a draft reuses its id
— in contrast to `isRecent`, which treats the same unparseable date as
recent; in general a record is retained exactly when its `publishedAt` is
falsy or parses to a timestamp strictly inside the window. -/
theorem merge_unparseable_evicted (hours : Int) (parse : String → Option Int) (now : Int)
    (existing newDrafts : List Article) (r : Article) (s : String)
    (hpub : r.publishedAt = some s) (hs : s ≠ "") (hparse : parse s = none) :
    keepExisting parse (now - hours * msPerHour) r = false ∧
    isRecent parse now r.publishedAt = true ∧
    ((∀ m ∈ newDrafts, m.id ≠ r.id) →
      r ∉ mergeArticles hours parse now existing newDrafts) ∧
    (∀ a : Article, keepExisting parse (now - hours * msPerHour) a = true ↔
      (truthy a.publishedAt = false ∨
        ∃ ts, parse (a.publishedAt.getD "") = some ts ∧ now - ts < hours * msPerHour)) := by
  have hkeep : keepExisting parse (now - hours * msPerHour) r = false := by
    unfold keepExisting
    rw [hpub, if_pos (by simp [truthy, hs])]
    rw [show (some s).getD "" = s from rfl, hparse]
  refine ⟨hkeep, ?_, fun hid => not_mem_merge_of_not_kept hkeep hid, ?_⟩
  · unfold isRecent
    rw [hpub, if_pos (by simp [truthy, hs])]
    rw [show (some s).getD "" = s from rfl, hparse]
  · intro a
    unfold keepExisting
    by_cases ht : truthy a.publishedAt = true
    · rw [if_pos ht]
      cases hp : parse (a.publishedAt.getD "") with
      | none =>
        simp [ht]
      | some ts =>
        constructor
        · intro h
          refine Or.inr ⟨ts, rfl, ?_⟩
          have := of_decide_eq_true h
          omega
        · rintro (h | ⟨ts', hts', h⟩)
          · rw [ht] at h
            exact absurd h (by simp)
          · have hEq : ts = ts' := Option.some.inj hts'
            subst hEq
            simp only [decide_eq_true_eq]
            omega
    · rw [if_neg ht]
      simp [Bool.not_eq_true] at ht
      simp [ht]

/-- C10 witness: the record dated `"not-a-date"` is dropped by the merge's
retention test even though `isRecent` calls the same date recent. -/
theorem merge_unparseable_evicted_witness :
    keepExisting demoParse (demoNow - 26 * msPerHour) dBadDate = false ∧
    isRecent demoParse demoNow dBadDate.publishedAt = true ∧
    dBadDate ∉ mergeArticles 26 demoParse demoNow [dBadDate] [dRecent] := by
  have h := merge_unparseable_evicted 26 demoParse demoNow [dBadDate] [dRecent] dBadDate
    "not-a-date" rfl (by decide) (by decide)
  exact ⟨h.1, h.2.1, h.2.2.1 (by decide)⟩

/-! ## Claims C6, C7, C8 -/

/-- C6: `isRecent(t)` is true iff `t` is absent/empty, or unparseable, or
`now - t` is strictly below the 26-hour window in milliseconds; and at the
exact boundary `now - t = 26h` it is false. -/
theorem isRecent_spec (parse : String → Option Int) (now : Int) (dateStr : Option String) :
    (isRecent parse now dateStr = true ↔
      (truthy dateStr = false ∨ parse (dateStr.getD "") = none ∨
        ∃ t, parse (dateStr.getD "") = some t ∧ now - t < 26 * msPerHour)) ∧
    (∀ t, truthy dateStr = true → parse (dateStr.getD "") = some t →
      now - t = 26 * msPerHour → isRecent parse now dateStr = false) := by
  constructor
  · unfold isRecent
    by_cases ht : truthy dateStr = true
    · rw [if_pos ht]
      cases hp : parse (dateStr.getD "") with
      | none => simp
      | some t =>
        constructor
        · intro h
          exact Or.inr (Or.inr ⟨t, rfl, of_decide_eq_true h⟩)
        · rintro (h | h | ⟨t', ht', hlt⟩)
          · rw [ht] at h
            exact absurd h (by simp)
          · exact absurd h (by simp)
          · have hEq : t = t' := Option.some.inj ht'
            subst hEq
            exact decide_eq_true hlt
    · rw [if_neg ht]
      simp only [Bool.not_eq_true] at ht
      simp [ht]
  · intro t htr hp hb
    unfold isRecent
    rw [if_pos htr, hp]
    simp only [decide_eq_false_iff_not]
    unfold LOOKBACK_HOURS
    omega

/-- C6 witness: a timestamp exactly 26 hours old is not recent. -/
theorem isRecent_spec_witness :
    isRecent demoParse (1704067200000 + 26 * msPerHour)
      (some "2024-01-01T00:00:00.000Z") = false :=
  (isRecent_spec demoParse (1704067200000 + 26 * msPerHour)
      (some "2024-01-01T00:00:00.000Z")).2 1704067200000 (by decide) (by decide) (by decide)

/-- C7: when one source's strategy throws and the others succeed, the
accumulated draft collection is exactly the concatenation of the other
sources' drafts, in order — the failing source contributes nothing and the
collection step is total (the run does not raise). -/
theorem collect_isolates_failure (dss1 dss2 : List (List Article)) :
    collectSourceDrafts (dss1.map Except.ok ++ Except.error () :: dss2.map Except.ok)
      = dss1.flatten ++ dss2.flatten := by
  have h : (Except.error () :: dss2.map Except.ok : List (Except Unit (List Article)))
      = [Except.error ()] ++ dss2.map Except.ok := rfl
  rw [h, collectSourceDrafts_append, collectSourceDrafts_append,
    collectSourceDrafts_ok, collectSourceDrafts_ok]
  show dss1.flatten ++ ([] ++ dss2.flatten) = dss1.flatten ++ dss2.flatten
  rw [List.nil_append]

/-- C8: `fetchPage` is a total function of the network outcome (every
throw is caught): it yields the payload text exactly for a 2xx response
whose body reads successfully, `null` when the request throws, and `null`
for every non-2xx status. -/
theorem fetchPage_spec (ev : FetchEvent) :
    (∀ t, fetchPage ev = some t ↔
      ∃ status, ev = .response status (some t) ∧ respOk status = true) ∧
    fetchPage .thrown = none ∧
    (∀ status body, respOk status = false → fetchPage (.response status body) = none) := by
  refine ⟨?_, rfl, ?_⟩
  · intro t
    cases ev with
    | thrown =>
      constructor
      · intro h
        exact absurd h (by simp [fetchPage])
      · rintro ⟨status, h, _⟩
        exact absurd h (by simp)
    | response status body =>
      by_cases hok : respOk status = true
      · constructor
        · intro h
          refine ⟨status, ?_, hok⟩
          have hb : body = some t := by simpa [fetchPage, hok] using h
          rw [hb]
        · rintro ⟨s, h, hsok⟩
          have h1 : status = s ∧ body = some t := by
            injection h with h1 h2
            exact ⟨h1, h2⟩
          simp [fetchPage, hok, h1.2]
      · constructor
        · intro h
          exact absurd h (by simp [fetchPage, hok])
        · rintro ⟨s, h, hsok⟩
          injection h with h1 h2
          subst h1
          exact absurd hsok hok
  · intro status body h
    simp [fetchPage, h]

/-- C8 witness: a 2xx response yields its payload; a 404 yields none. -/
theorem fetchPage_spec_witness :
    fetchPage (.response 200 (some "payload")) = some "payload" ∧
    fetchPage (.response 404 (some "payload")) = none :=
  ⟨((fetchPage_spec (.response 200 (some "payload"))).1 "payload").mpr ⟨200, rfl, by decide⟩,
    (fetchPage_spec (.response 404 (some "payload"))).2.2 404 (some "payload") (by decide)⟩

/-! ## Claim C9: the content enricher (scraper.js lines 189–220) -/

/-- One iteration of the enrichment loop for a draft within the follow
cap: a draft without a truthy `sourceUrl` is pushed unchanged; otherwise
its page is fetched (`fetched`, `none` on failure), the first
body-selector match is cleaned of noise and its text extracted (`extract`,
`none` when the selector matches nothing), and `content` is overwritten
only when the cleaned text is longer than 200 characters. -/
def enrichOne (fetched : Option String) (extract : String → Option String)
    (a : Article) : Article :=
  if truthy a.sourceUrl then
    match fetched with
    | none => a
    | some html =>
      match extract html with
      | none => a
      | some text => if text.length > 200 then { a with content := text } else a
  else a

/-- `enrichWithContent(articles, bodySelector)`: process the first
`MAX_FOLLOW_PER_SITE` drafts through `enrichOne` in order, then append the
remaining drafts untouched. `fetched` gives each draft's page fetch
outcome and `extract` the body-selector extraction on a fetched page. -/
def enrichWithContent (fetched : Article → Option String)
    (extract : String → Option String) (articles : List Article) : List Article :=
  (articles.take MAX_FOLLOW_PER_SITE).map (fun a => enrichOne (fetched a) extract a)
    ++ articles.drop MAX_FOLLOW_PER_SITE

theorem take_map_append_drop_getElem? (f : Article → Article) :
    ∀ (n : Nat) (l : List Article) (i : Nat),
      ((l.take n).map f ++ l.drop n)[i]?
        = if i < n then (l[i]?).map f else l[i]?
  | 0, l, i => by simp
  | n + 1, [], i => by simp
  | n + 1, a :: l, 0 => by simp
  | n + 1, a :: l, i + 1 => by
    have ih := take_map_append_drop_getElem? f n l i
    simp only [List.take_succ_cons, List.map_cons, List.drop_succ_cons, List.cons_append,
      List.getElem?_cons_succ]
    rw [ih]
    by_cases h : i < n
    · rw [if_pos h, if_pos (Nat.succ_lt_succ h)]
    · rw [if_neg h, if_neg (fun hc => h (Nat.lt_of_succ_lt_succ hc))]

theorem enrich_getElem? (fetched : Article → Option String)
    (extract : String → Option String) (articles : List Article) (i : Nat) :
    (enrichWithContent fetched extract articles)[i]?
      = if i < MAX_FOLLOW_PER_SITE
          then (articles[i]?).map (fun a => enrichOne (fetched a) extract a)
          else articles[i]? :=
  take_map_append_drop_getElem? _ MAX_FOLLOW_PER_SITE articles i

theorem enrichOne_fields (fetched : Option String) (extract : String → Option String)
    (a : Article) :
    (enrichOne fetched extract a).id = a.id ∧
    (enrichOne fetched extract a).title = a.title ∧
    (enrichOne fetched extract a).author = a.author ∧
    (enrichOne fetched extract a).source = a.source ∧
    (enrichOne fetched extract a).sourceUrl = a.sourceUrl ∧
    (enrichOne fetched extract a).publishedAt = a.publishedAt ∧
    (enrichOne fetched extract a).excerpt = a.excerpt ∧
    (enrichOne fetched extract a).scrapedAt = a.scrapedAt ∧
    ((enrichOne fetched extract a).content = a.content ∨
      (truthy a.sourceUrl = true ∧ ∃ html text, fetched = some html ∧
        extract html = some text ∧ text.length > 200 ∧
        (enrichOne fetched extract a).content = text)) := by
  unfold enrichOne
  by_cases ht : truthy a.sourceUrl = true
  · rw [if_pos ht]
    cases fetched with
    | none => simp
    | some html =>
      dsimp only
      cases hx : extract html with
      | none => simp
      | some text =>
        dsimp only
        by_cases hl : text.length > 200
        · rw [if_pos hl]
          exact ⟨rfl, rfl, rfl, rfl, rfl, rfl, rfl, rfl,
            Or.inr ⟨ht, html, text, rfl, hx, hl, rfl⟩⟩
        · rw [if_neg hl]
          simp
  · rw [if_neg ht]
    simp

/-- C9: enrichment preserves length; drafts at index ≥ 10 pass through
untouched; every surviving draft keeps all fields except possibly
`content`, and `content` changes only for a draft within the cap with a
truthy URL whose fetch succeeds, whose body selector matches, and whose
cleaned text exceeds 200 characters — in which case `content` becomes
exactly that text. -/
theorem enrichWithContent_spec (fetched : Article → Option String)
    (extract : String → Option String) (articles : List Article) :
    (enrichWithContent fetched extract articles).length = articles.length ∧
    (∀ i : Nat, MAX_FOLLOW_PER_SITE ≤ i →
      (enrichWithContent fetched extract articles)[i]? = articles[i]?) ∧
    (∀ i : Nat, ∀ a, articles[i]? = some a →
      ∃ b, (enrichWithContent fetched extract articles)[i]? = some b ∧
        b.id = a.id ∧ b.title = a.title ∧ b.author = a.author ∧ b.source = a.source ∧
        b.sourceUrl = a.sourceUrl ∧ b.publishedAt = a.publishedAt ∧
        b.excerpt = a.excerpt ∧ b.scrapedAt = a.scrapedAt ∧
        (b.content = a.content ∨
          (i < MAX_FOLLOW_PER_SITE ∧ truthy a.sourceUrl = true ∧
            ∃ html text, fetched a = some html ∧ extract html = some text ∧
              text.length > 200 ∧ b.content = text))) := by
  refine ⟨?_, ?_, ?_⟩
  · unfold enrichWithContent
    rw [List.length_append, List.length_map, List.length_take, List.length_drop]
    omega
  · intro i hi
    rw [enrich_getElem?, if_neg (by omega)]
  · intro i a ha
    by_cases hi : i < MAX_FOLLOW_PER_SITE
    · refine ⟨enrichOne (fetched a) extract a, ?_, ?_⟩
      · rw [enrich_getElem?, if_pos hi, ha]
        rfl
      · rcases enrichOne_fields (fetched a) extract a with
          ⟨h1, h2, h3, h4, h5, h6, h7, h8, h9⟩
        refine ⟨h1, h2, h3, h4, h5, h6, h7, h8, ?_⟩
        rcases h9 with h9 | ⟨hu, html, text, hf, hx, hlen, hc⟩
        · exact Or.inl h9
        · exact Or.inr ⟨hi, hu, html, text, hf, hx, hlen, hc⟩
    · refine ⟨a, ?_, rfl, rfl, rfl, rfl, rfl, rfl, rfl, rfl, Or.inl rfl⟩
      rw [enrich_getElem?, if_neg hi]
      exact ha

/-- A long cleaned body text (201 characters). -/
def bigText : String := String.mk (List.replicate 201 'x')

/-- A concrete page fetch environment for the enrichment witness. -/
def demoFetched : Article → Option String := fun a =>
  if a.id = some "r" then some "<html>" else none

/-- A concrete body-selector extraction for the enrichment witness. -/
def demoExtract : String → Option String := fun h =>
  if h = "<html>" then some bigText else none

set_option maxRecDepth 8192 in
/-- C9 witness: on a 12-draft list, enrichment keeps the length, the 12th
draft (beyond the cap) passes through untouched, and the first draft keeps
every field except `content`, which becomes the long cleaned text. -/
theorem enrichWithContent_spec_witness :
    (enrichWithContent demoFetched demoExtract (dRecent :: List.replicate 11 dNull)).length = 12 ∧
    (enrichWithContent demoFetched demoExtract (dRecent :: List.replicate 11 dNull))[11]?
      = some dNull ∧
    ∃ b, (enrichWithContent demoFetched demoExtract (dRecent :: List.replicate 11 dNull))[0]?
        = some b ∧ b.id = dRecent.id ∧ b.content = bigText := by
  have h := enrichWithContent_spec demoFetched demoExtract (dRecent :: List.replicate 11 dNull)
  refine ⟨by rw [h.1] ; rfl, ?_, ?_⟩
  · rw [h.2.1 11 (by decide)]
    rfl
  · rcases h.2.2 0 dRecent rfl with ⟨b, hb, hid, _⟩
    have hbval : b = enrichOne (demoFetched dRecent) demoExtract dRecent := by
      have h0 : (enrichWithContent demoFetched demoExtract
          (dRecent :: List.replicate 11 dNull))[0]?
          = some (enrichOne (demoFetched dRecent) demoExtract dRecent) := rfl
      rw [h0] at hb
      exact (Option.some.inj hb).symm
    refine ⟨b, hb, hid, ?_⟩
    rw [hbval]
    decide

/-! ## Claim C3: the RSS/Atom feed strategy (scraper.js lines 226–274) -/

/-- `cleanText(str)` (scraper.js 34–36): collapse whitespace runs to a
single space and trim — the non-whitespace chunks joined by single
spaces. -/
def cleanText (s : String) : String :=
  " ".intercalate
    (((s.data.splitOnP (fun c => c.isWhitespace)).filter (fun w => w ≠ [])).map String.mk)

/-- JS `str.slice(0, n)`: the first `n` characters. -/
def sliceChars (n : Nat) (s : String) : String := String.mk (s.data.take n)

/-- The suffix after the first `>`, if the list has one. -/
def afterGt : List Char → Option (List Char)
  | [] => none
  | c :: rest => if c = '>' then some rest else afterGt rest

/-- `description.replace(/<[^>]*>/g, '')` (scraper.js 258) on a character
list, with enough fuel (the list's length suffices): every `<...>` span is
dropped; a `<` with no later `>` is left verbatim along with the rest. -/
def stripTagsFuel : Nat → List Char → List Char
  | 0, l => l
  | _ + 1, [] => []
  | fuel + 1, c :: rest =>
    if c = '<' then
      match afterGt rest with
      | some rest' => stripTagsFuel fuel rest'
      | none => c :: rest
    else c :: stripTagsFuel fuel rest

/-- `description.replace(/<[^>]*>/g, '')` on a string. -/
def stripTags (s : String) : String :=
  String.mk (stripTagsFuel s.data.length s.data)

/-- The tag of a description-like element in a feed entry. -/
inductive DescTag where
  | description
  | summary
  | content
deriving DecidableEq, Repr

/-- One `description`, `summary` or `content` element with its text. -/
structure DescElem where
  tag : DescTag
  text : String
deriving DecidableEq, Repr

/-- One `item`/`entry` element of a feed, abstracted to the cheerio
queries the scraper performs on it: each field is the result of the
corresponding selector (`""` for an empty `.text()`, `none` for a missing
attribute); `descElems` lists the entry's description/summary/content
elements in document order, so its head is what
`$el.find('description, summary, content').first()` selects. -/
structure RssEntry where
  titleText : String
  linkHref : Option String
  linkText : String
  pubDateText : String
  publishedText : String
  updatedText : String
  descElems : List DescElem
  authorNameText : String
  dcCreatorText : String
deriving DecidableEq, Repr

/-- JS `a || b` for strings: `b` when `a` is empty. -/
def jsOrS (a b : String) : String := if a = "" then b else a

/-- JS `s || null`: `null` for the empty string. -/
def jsOrNull (s : String) : Option String := if s = "" then none else some s

/-- JS `attr(..) || text`: the attribute when present and non-empty,
otherwise the fallback (scraper.js 239–241). -/
def jsOrOS (a : Option String) (b : String) : String :=
  match a with
  | some s => if s = "" then b else s
  | none => b

/-- The text of the first description-like element in document order
(scraper.js 246); an empty selection yields `""`. -/
def firstDescText (e : RssEntry) : String :=
  match e.descElems with
  | [] => ""
  | d :: _ => d.text

/-- Processing of one feed entry by `scrapeRss` (scraper.js 237–269).
`parse` and `iso` model `new Date(s).getTime()` and `toISOString`; `hash`
models `urlToId`; `nowIso` the `new Date().toISOString()` stamp; `cutoff`
the recency cutoff of line 233. `Except.error` is the `RangeError` that
`new Date(pubDate).toISOString()` throws on an unparseable truthy date;
`Except.ok none` is a skipped entry. -/
def rssEntryToDraft (parse : String → Option Int) (iso : Int → String)
    (hash : String → String) (source : String) (nowIso : String) (cutoff : Int)
    (e : RssEntry) : Except Unit (Option Article) :=
  let title := cleanText e.titleText
  let link := jsOrOS e.linkHref (cleanText e.linkText)
  let pubDate := jsOrS (cleanText e.pubDateText)
    (jsOrS (cleanText e.publishedText) (cleanText e.updatedText))
  let author := jsOrS (cleanText e.authorNameText) (cleanText e.dcCreatorText)
  let contentText := cleanText (stripTags (firstDescText e))
  let push : Option String → Except Unit (Option Article) := fun publishedAt =>
    Except.ok (some
      { id := some (hash link)
        title := some title
        author := jsOrNull author
        source := source
        sourceUrl := some link
        publishedAt := publishedAt
        excerpt := jsOrNull (sliceChars 400 contentText)
        content := contentText
        scrapedAt := nowIso })
  if title = "" ∨ link = "" then Except.ok none
  else if pubDate = "" then push none
  else
    match parse pubDate with
    | some ts => if ts < cutoff then Except.ok none else push (some (iso ts))
    | none => Except.error ()

instance instDecEqExceptDraft {ε α : Type} [DecidableEq ε] [DecidableEq α] :
    DecidableEq (Except ε α) := fun x y =>
  match x, y with
  | .ok a, .ok b =>
    if h : a = b then isTrue (by rw [h])
    else isFalse (fun hc => h (Except.ok.inj hc))
  | .error a, .error b =>
    if h : a = b then isTrue (by rw [h])
    else isFalse (fun hc => h (Except.error.inj hc))
  | .ok a, .error b => isFalse (fun hc => Except.noConfusion hc)
  | .error a, .ok b => isFalse (fun hc => Except.noConfusion hc)

/-- A feed entry with a short `summary` element followed by a populated
full-body `content` element. -/
def entrySummaryFirst : RssEntry :=
  { titleText := "T"
    linkHref := some "https://x/a"
    linkText := ""
    pubDateText := ""
    publishedText := ""
    updatedText := ""
    descElems := [⟨DescTag.summary, "short summary"⟩,
      ⟨DescTag.content, "<p>the much longer full body of the article</p>"⟩]
    authorNameText := ""
    dcCreatorText := "" }

/-- The draft the feed strategy produces from `entrySummaryFirst`. -/
def dSummaryDraft : Article :=
  { id := some "h", title := some "T", author := none, source := "Feed",
    sourceUrl := some "https://x/a", publishedAt := none,
    excerpt := some "short summary", content := "short summary", scrapedAt := "now" }

set_option maxRecDepth 40000 in
/-- C3, counterexample: on an entry holding both a short summary and a
populated full-body content element, the draft's body text is the cleaned
summary — the first matching element in document order — not the cleaned
full-body field, and the excerpt is cut from that same summary. -/
theorem rss_fullbody_cex :
    ∃ d, rssEntryToDraft demoParse (fun _ => "") (fun _ => "h") "Feed" "now" 0 entrySummaryFirst
        = Except.ok (some d) ∧
      d.content = "short summary" ∧
      d.content ≠ cleanText (stripTags "<p>the much longer full body of the article</p>") := by
  refine ⟨dSummaryDraft, by decide, by decide, by decide⟩

/-- C3 (amended): the feed strategy does not prefer a full-body field.
Whenever an entry yields a draft, the draft's body text is the cleaned,
tag-stripped text of the first description/summary/content element in
document order — whichever tag it carries — and the excerpt is the first
400 characters of that same text (null when empty); a full-body content
element is used only when it happens to come first. -/
theorem rss_first_desc_spec (parse : String → Option Int) (iso : Int → String)
    (hash : String → String) (source : String) (nowIso : String) (cutoff : Int)
    (e : RssEntry) (d : Article)
    (hdraft : rssEntryToDraft parse iso hash source nowIso cutoff e
      = Except.ok (some d)) :
    d.content = cleanText (stripTags (firstDescText e)) ∧
    d.excerpt = jsOrNull (sliceChars 400 (cleanText (stripTags (firstDescText e)))) := by
  unfold rssEntryToDraft at hdraft
  dsimp only at hdraft
  split at hdraft
  · exact absurd hdraft (by simp)
  · split at hdraft
    · rw [Except.ok.injEq, Option.some.injEq] at hdraft
      subst hdraft
      constructor <;> with_reducible rfl
    · split at hdraft
      · split at hdraft
        · exact absurd hdraft (by simp)
        · rw [Except.ok.injEq, Option.some.injEq] at hdraft
          subst hdraft
          constructor <;> with_reducible rfl
      · exact absurd hdraft (by simp)

set_option maxRecDepth 40000 in
/-- C3 witness: the concrete summary-then-content entry yields a draft
whose body text and excerpt both come from the summary element. -/
theorem rss_first_desc_spec_witness :
    dSummaryDraft.content = cleanText (stripTags (firstDescText entrySummaryFirst)) ∧
    dSummaryDraft.excerpt
      = jsOrNull (sliceChars 400 (cleanText (stripTags (firstDescText entrySummaryFirst)))) :=
  rss_first_desc_spec demoParse (fun _ => "") (fun _ => "h") "Feed" "now" 0
    entrySummaryFirst dSummaryDraft (by decide)

end BearsClips
